import Mathlib

/-!
Shallow embedding of the Switch Transformer expert router
(`labml_nn/transformers/switch/__init__.py`, class `SwitchFeedForward`,
method `__call__`).

Token vectors are lists of rationals; a batch is a nested
`seq_len × batch_size × d_model` list.  The per-expert feed-forward networks
(`FeedForward`, imported by the source from outside this repository and
declared an out-of-scope external collaborator by the specification) are
abstracted as a per-token function field `experts`.  The floating-point
exponential inside `nn.Softmax` is abstracted as a function field `exp`; the
only property of it the development ever uses is positivity, which holds for
the real exponential.  Randomness (`torch.randperm`, drawn from the global
generator once per over-capacity expert) is passed in explicitly: `perms i`
is the index permutation the call would draw for expert `i`; theorems that
need it assume `perms i` is a permutation of `List.range` of the matching
length.  `torch.max(route_prob, dim=-1)` over an expert axis of size zero
raises at runtime; the embedding models the call as `Option`, returning
`none` exactly in that degenerate `n_switches = 0` configuration.
-/

namespace SwitchTransformer

/-- Python `int()` applied to a rational: truncation toward zero. -/
def pyInt (q : ℚ) : ℤ := if 0 ≤ q then ⌊q⌋ else ⌈q⌉

/-- Python slice `l[:c]` for an integer `c` (a negative `c` counts from the
end of the list). -/
def pyTake (c : ℤ) (l : List α) : List α :=
  if 0 ≤ c then l.take c.toNat else l.take (l.length - (-c).toNat)

/-- Python slice `l[c:]` for an integer `c` (a negative `c` counts from the
end of the list). -/
def pyDrop (c : ℤ) (l : List α) : List α :=
  if 0 ≤ c then l.drop c.toNat else l.drop (l.length - (-c).toNat)

/-- Auxiliary loop for `torchMax`: scans the remaining entries keeping the
current best value `bv` and its index `bi`; a later entry replaces the best
only when strictly larger, so the first maximal entry wins. -/
def torchMaxAux : List ℚ → ℚ → ℕ → ℕ → ℚ × ℕ
  | [], bv, bi, _ => (bv, bi)
  | a :: rest, bv, bi, i =>
      if bv < a then torchMaxAux rest a i (i + 1) else torchMaxAux rest bv bi (i + 1)

/-- Semantics of `torch.max(v, dim=-1)` on one row: the maximum value together
with the index of its first occurrence (deterministic tie-breaking, as the
specification requires of the underlying numeric routine). -/
def torchMax : List ℚ → ℚ × ℕ
  | [] => (0, 0)
  | a :: rest => torchMaxAux rest a 0 1

/-- Semantics of `torch.Tensor.view(seq_len, bs, d_model)` on the flat list of
row vectors: split into `s` consecutive groups of `b` rows. -/
def chunksOf : ℕ → ℕ → List α → List (List α)
  | 0, _, _ => []
  | s + 1, b, l => l.take b :: chunksOf s b (l.drop b)

/-- Semantics of `tensor[p]` for an index tensor `p`: select the entries of
`l` at the positions listed in `p` (used with `p = torch.randperm n`). -/
def permuteBy (p : List ℕ) (l : List ℕ) : List ℕ :=
  p.map (fun j => l.getD j 0)

/-- Semantics of `buf[idx, :] = vals` row scatter: write the rows `vals` at
the row positions `idx` of the buffer. -/
def scatterRows (buf : List (List ℚ)) (idx : List ℕ) (vals : List (List ℚ)) :
    List (List ℚ) :=
  (idx.zip vals).foldl (fun b p => b.set p.1 p.2) buf

/-- Semantics of `x.new_zeros(x.shape)`: a buffer of the same shape as `x`
filled with zeros. -/
def newZeros (x : List (List ℚ)) : List (List ℚ) :=
  x.map (fun v => v.map (fun _ => (0 : ℚ)))

/-- Semantics of `t.sum(0)` for a `rows × n` tensor given as a list of rows:
the entrywise sum down each of the `n` columns. -/
def sumDim0 (n : ℕ) (rows : List (List ℚ)) : List ℚ :=
  (List.range n).map (fun j => (rows.map (fun r => r.getD j 0)).sum)

/-- Dot product, the row action of `nn.Linear`. -/
def dot (w v : List ℚ) : ℚ := (List.zipWith (fun a b => a * b) w v).sum

/-- The token at flat position `t` of the flattened batch. -/
def tokenAt (x : List (List ℚ)) (t : ℕ) : List ℚ := x.getD t []

/-- The `SwitchFeedForward` module: its construction-time configuration and
learned state.  `experts` abstracts the list of per-expert `FeedForward`
networks (external to this repository) as per-token functions, `switch_weight`
and `switch_bias` are the parameters of the `nn.Linear(d_model, n_experts)`
routing layer, and `exp` abstracts the floating-point exponential used by
`nn.Softmax`. -/
structure SwitchFeedForward where
  capacity_factor : ℚ
  drop_tokens : Bool
  is_scale_prob : Bool
  n_switches : ℕ
  d_model : ℕ
  experts : ℕ → List ℚ → List ℚ
  switch_weight : List (List ℚ)
  switch_bias : List ℚ
  exp : ℚ → ℚ

namespace SwitchFeedForward

variable (m : SwitchFeedForward)

/-- The routing layer `self.switch(x)` on one token: `W·v + b` per expert. -/
def switchOut (v : List ℚ) : List ℚ :=
  List.zipWith (fun w c => dot w v + c) m.switch_weight m.switch_bias

/-- `nn.Softmax(dim=-1)` on one row of scores. -/
def softmaxRow (z : List ℚ) : List ℚ :=
  z.map (fun zi => m.exp zi / (z.map m.exp).sum)

/-- `route_prob = self.softmax(self.switch(x))`, one token at a time. -/
def route_prob (v : List ℚ) : List ℚ := m.softmaxRow (m.switchOut v)

/-- `route_prob_max` for one token: the maximal routing probability. -/
def route_prob_max (v : List ℚ) : ℚ := (torchMax (m.route_prob v)).1

/-- `routes` for one token: the argmax expert index. -/
def routes (v : List ℚ) : ℕ := (torchMax (m.route_prob v)).2

/-- The scaling factor applied to each token: `route_prob_max` when
`is_scale_prob`, else `route_prob_max / route_prob_max.detach()` (`detach` is
the numeric identity; only the gradient flow differs, which the embedding
does not model). -/
def factor (v : List ℚ) : ℚ :=
  if m.is_scale_prob then m.route_prob_max v
  else m.route_prob_max v / m.route_prob_max v

/-- `x = x * factor.view(-1, 1)` on one token: entrywise scaling. -/
def scaled (v : List ℚ) : List ℚ := v.map (fun c => c * m.factor v)

/-- `indexes_list[i] = torch.eq(routes, i).nonzero(...)`: the ascending list
of flat token positions routed to expert `i`. -/
def indexes_list (x : List (List ℚ)) (i : ℕ) : List ℕ :=
  (List.range x.length).filter (fun t => m.routes (tokenAt x t) = i)

/-- `capacity = int(self.capacity_factor * len(x) / self.n_switches)`. -/
def capacity (x : List (List ℚ)) : ℤ :=
  pyInt (m.capacity_factor * (x.length : ℚ) / (m.n_switches : ℚ))

/-- `counts`: the number of tokens routed to each expert, pre-drop.  (The
source stores these exact natural numbers into a float tensor via
`x.new_tensor`.) -/
def counts (x : List (List ℚ)) : List ℕ :=
  (List.range m.n_switches).map (fun i => (m.indexes_list x i).length)

/-- Whether the drop branch fires for expert `i`: `drop_tokens` is set and
`len(indexes_list[i]) > capacity`. -/
def overCap (x : List (List ℚ)) (i : ℕ) : Prop :=
  m.drop_tokens = true ∧ m.capacity x < ((m.indexes_list x i).length : ℤ)

instance (x : List (List ℚ)) (i : ℕ) : Decidable (m.overCap x i) :=
  inferInstanceAs (Decidable (And _ _))

/-- The token positions expert `i` actually processes: when the drop branch
fires, the first `capacity` entries of the randomly permuted index list,
otherwise the whole index list. -/
def keptIdx (x : List (List ℚ)) (perms : ℕ → List ℕ) (i : ℕ) : List ℕ :=
  if m.overCap x i then pyTake (m.capacity x) (permuteBy (perms i) (m.indexes_list x i))
  else m.indexes_list x i

/-- The token positions expert `i` drops: when the drop branch fires, the
permuted index list beyond `capacity`, otherwise none. -/
def droppedFor (x : List (List ℚ)) (perms : ℕ → List ℕ) (i : ℕ) : List ℕ :=
  if m.overCap x i then pyDrop (m.capacity x) (permuteBy (perms i) (m.indexes_list x i))
  else []

/-- `dropped` after `torch.cat`: all dropped token positions, in expert order
(`len` of it is 0 as well when no expert overflowed and the Python list stays
empty). -/
def droppedIdx (x : List (List ℚ)) (perms : ℕ → List ℕ) : List ℕ :=
  ((List.range m.n_switches).map (fun i => m.droppedFor x perms i)).flatten

/-- `route_outputs[i] = self.experts[i](x[indexes_list[i], :])`: expert `i`
applied to each of its kept (already confidence-scaled) tokens. -/
def route_outputs (x : List (List ℚ)) (perms : ℕ → List ℕ) (i : ℕ) : List (List ℚ) :=
  (m.keptIdx x perms i).map (fun t => m.experts i (m.scaled (tokenAt x t)))

/-- `final_output` as a flat list of rows: start from zeros, scatter each
expert's outputs back to the original positions, then copy the (scaled)
inputs of the dropped tokens through. -/
def final_output (x : List (List ℚ)) (perms : ℕ → List ℕ) : List (List ℚ) :=
  let afterExperts :=
    (List.range m.n_switches).foldl
      (fun buf i => scatterRows buf (m.keptIdx x perms i) (m.route_outputs x perms i))
      (newZeros (x.map m.scaled))
  scatterRows afterExperts (m.droppedIdx x perms)
    ((m.droppedIdx x perms).map (fun t => m.scaled (tokenAt x t)))

/-- The quadruple returned by `SwitchFeedForward.__call__`. -/
structure Result where
  output : List (List (List ℚ))
  counts : List ℕ
  route_prob_sum : List ℚ
  n_dropped : ℕ

/-- The value `__call__` returns when it does not raise: the reshaped final
output, the pre-drop per-expert counts, `route_prob.sum(0)` and the number of
dropped tokens. -/
def callResult (X : List (List (List ℚ))) (perms : ℕ → List ℕ) : Result :=
  let x := X.flatten
  { output := chunksOf X.length (X.headD []).length (m.final_output x perms)
    counts := m.counts x
    route_prob_sum := sumDim0 m.n_switches (x.map (fun v => m.route_prob v))
    n_dropped := (m.droppedIdx x perms).length }

/-- `__call__` itself.  With `n_switches = 0` the reduction
`torch.max(route_prob, dim=-1)` is over an empty axis and raises, modelled as
`none`; otherwise the call returns the quadruple. -/
def call (X : List (List (List ℚ))) (perms : ℕ → List ℕ) : Option Result :=
  if m.n_switches = 0 then none else some (m.callResult X perms)

/-- Identity permutations, a concrete admissible value for the `perms`
argument (`torch.randperm` may return it). -/
def idPerms (x : List (List ℚ)) : ℕ → List ℕ :=
  fun i => List.range (m.indexes_list x i).length

end SwitchFeedForward

/-- A concrete two-expert toy instance (identity experts, zero routing
weights, constant positive `exp`), used to instantiate the theorems at
explicit inputs. -/
def toyModule (cf : ℚ) (dt ds : Bool) : SwitchFeedForward :=
  { capacity_factor := cf, drop_tokens := dt, is_scale_prob := ds,
    n_switches := 2, d_model := 1,
    experts := fun _ v => v,
    switch_weight := [[0], [0]], switch_bias := [0, 0],
    exp := fun _ => 1 }

/-- A degenerate instance with no experts at all (`n_experts = 0`). -/
def toyModule0 : SwitchFeedForward :=
  { capacity_factor := 1, drop_tokens := true, is_scale_prob := true,
    n_switches := 0, d_model := 1,
    experts := fun _ v => v,
    switch_weight := [], switch_bias := [],
    exp := fun _ => 1 }

/-- A concrete `2 × 1 × 1` input batch (two tokens). -/
def toyBatch : List (List (List ℚ)) := [[[1]], [[2]]]

/-- A concrete `1 × 1 × 1` input batch (one token). -/
def toyBatch1 : List (List (List ℚ)) := [[[1]]]

/-! Helper lemmas about the tensor-primitive models. -/

theorem pyTake_append_pyDrop (c : ℤ) (l : List α) : pyTake c l ++ pyDrop c l = l := by
  unfold pyTake pyDrop
  split <;> exact List.take_append_drop _ _

theorem pyTake_sublist (c : ℤ) (l : List α) : (pyTake c l).Sublist l := by
  unfold pyTake; split <;> exact List.take_sublist _ _

theorem pyDrop_sublist (c : ℤ) (l : List α) : (pyDrop c l).Sublist l := by
  unfold pyDrop; split <;> exact List.drop_sublist _ _

theorem length_pyTake_le {c : ℤ} (hc : 0 ≤ c) (l : List α) :
    ((pyTake c l).length : ℤ) ≤ c := by
  unfold pyTake
  rw [if_pos hc, List.length_take]
  have h1 : min c.toNat l.length ≤ c.toNat := Nat.min_le_left _ _
  have h2 : ((min c.toNat l.length : ℕ) : ℤ) ≤ (c.toNat : ℤ) := Int.ofNat_le.mpr h1
  rwa [Int.toNat_of_nonneg hc] at h2

theorem torchMaxAux_snd_lt : ∀ (l : List ℚ) (bv : ℚ) (bi i : ℕ), bi < i →
    (torchMaxAux l bv bi i).2 < i + l.length
  | [], _, _, _, h => by simpa using h
  | a :: rest, bv, bi, i, h => by
    simp only [torchMaxAux]
    split
    · have := torchMaxAux_snd_lt rest a i (i + 1) (Nat.lt_succ_self i)
      simp only [List.length_cons]; omega
    · have := torchMaxAux_snd_lt rest bv bi (i + 1) (Nat.lt_trans h (Nat.lt_succ_self i))
      simp only [List.length_cons]; omega

theorem torchMax_snd_lt {l : List ℚ} (h : l ≠ []) : (torchMax l).2 < l.length := by
  cases l with
  | nil => exact absurd rfl h
  | cons a rest =>
    have := torchMaxAux_snd_lt rest a 0 1 Nat.one_pos
    simp only [torchMax, List.length_cons]; omega

theorem torchMaxAux_fst_mem : ∀ (l : List ℚ) (bv : ℚ) (bi i : ℕ),
    (torchMaxAux l bv bi i).1 = bv ∨ (torchMaxAux l bv bi i).1 ∈ l
  | [], _, _, _ => Or.inl rfl
  | a :: rest, bv, bi, i => by
    simp only [torchMaxAux]
    split
    · rcases torchMaxAux_fst_mem rest a i (i + 1) with h | h
      · exact Or.inr (by rw [h]; exact List.mem_cons_self a rest)
      · exact Or.inr (List.mem_cons_of_mem a h)
    · rcases torchMaxAux_fst_mem rest bv bi (i + 1) with h | h
      · exact Or.inl h
      · exact Or.inr (List.mem_cons_of_mem a h)

theorem torchMax_fst_mem {l : List ℚ} (h : l ≠ []) : (torchMax l).1 ∈ l := by
  cases l with
  | nil => exact absurd rfl h
  | cons a rest =>
    simp only [torchMax]
    rcases torchMaxAux_fst_mem rest a 0 1 with h1 | h1
    · rw [h1]; exact List.mem_cons_self a rest
    · exact List.mem_cons_of_mem a h1

theorem range_map_getD (d : α) : ∀ (l : List α),
    (List.range l.length).map (fun i => l.getD i d) = l
  | [] => rfl
  | a :: t => by
    rw [List.length_cons, List.range_succ_eq_map, List.map_cons, List.map_map]
    have h1 : (a :: t).getD 0 d = a := rfl
    have h2 : ((fun i => (a :: t).getD i d) ∘ Nat.succ) = fun i => t.getD i d := rfl
    rw [h1, h2, range_map_getD d t]

theorem permuteBy_perm {p l : List ℕ} (h : p.Perm (List.range l.length)) :
    (permuteBy p l).Perm l := by
  have := h.map (fun j => l.getD j 0)
  rwa [range_map_getD] at this

theorem length_chunksOf (s b : ℕ) (l : List α) : (chunksOf s b l).length = s := by
  induction s generalizing l with
  | zero => rfl
  | succ s ih => simp [chunksOf, ih]

theorem mem_chunksOf_subset {s b : ℕ} {l r : List α} (h : r ∈ chunksOf s b l) :
    ∀ a ∈ r, a ∈ l := by
  induction s generalizing l with
  | zero => cases h
  | succ s ih =>
    simp only [chunksOf, List.mem_cons] at h
    rcases h with rfl | h
    · exact fun a ha => (List.take_sublist b l).subset ha
    · exact fun a ha => (List.drop_sublist b l).subset (ih h a ha)

theorem length_mem_chunksOf {s b : ℕ} {l : List α} (hl : l.length = s * b) :
    ∀ r ∈ chunksOf s b l, r.length = b := by
  induction s generalizing l with
  | zero => intro r hr; cases hr
  | succ s ih =>
    intro r hr
    simp only [chunksOf, List.mem_cons] at hr
    rcases hr with rfl | hr
    · rw [List.length_take]
      have hb : b ≤ l.length := by rw [hl, Nat.succ_mul]; omega
      omega
    · exact ih (by rw [List.length_drop, hl, Nat.succ_mul]; omega) r hr

theorem flatten_chunksOf {s b : ℕ} {l : List α} (hl : l.length = s * b) :
    (chunksOf s b l).flatten = l := by
  induction s generalizing l with
  | zero =>
    have : l = [] := List.length_eq_zero.mp (by rw [hl, Nat.zero_mul])
    simp [chunksOf, this]
  | succ s ih =>
    have hd : (l.drop b).length = s * b := by rw [List.length_drop, hl, Nat.succ_mul]; omega
    simp [chunksOf, ih hd, List.take_append_drop]

theorem chunksOf_nil (s b : ℕ) : chunksOf s b ([] : List α) = List.replicate s [] := by
  induction s with
  | zero => rfl
  | succ s ih => simp [chunksOf, List.replicate_succ, ih]

theorem scatterRows_nil_vals (buf : List (List ℚ)) (idx : List ℕ) :
    scatterRows buf idx [] = buf := by
  simp [scatterRows, List.zip_nil_right]

theorem scatterRows_cons (buf : List (List ℚ)) (a : ℕ) (v : List ℚ)
    (idx : List ℕ) (vals : List (List ℚ)) :
    scatterRows buf (a :: idx) (v :: vals) = scatterRows (buf.set a v) idx vals := rfl

theorem length_scatterRows (buf : List (List ℚ)) (idx : List ℕ) (vals : List (List ℚ)) :
    (scatterRows buf idx vals).length = buf.length := by
  induction idx generalizing buf vals with
  | nil => rfl
  | cons a idx ih =>
    cases vals with
    | nil => rw [scatterRows_nil_vals]
    | cons v vals => rw [scatterRows_cons, ih, List.length_set]

theorem getD_scatterRows_not_mem {t : ℕ} (buf : List (List ℚ)) (idx : List ℕ)
    (vals : List (List ℚ)) (d : List ℚ) (h : t ∉ idx) :
    (scatterRows buf idx vals).getD t d = buf.getD t d := by
  induction idx generalizing buf vals with
  | nil => rfl
  | cons a idx ih =>
    cases vals with
    | nil => rw [scatterRows_nil_vals]
    | cons v vals =>
      rw [scatterRows_cons, ih _ _ (fun hmem => h (List.mem_cons_of_mem a hmem))]
      have hne : a ≠ t := fun e => h (e ▸ List.mem_cons_self a idx)
      rw [List.getD_eq_getElem?_getD, List.getD_eq_getElem?_getD, List.getElem?_set_ne hne]

theorem getD_scatterRows_map {t : ℕ} {idx : List ℕ} (f : ℕ → List ℚ)
    (buf : List (List ℚ)) (d : List ℚ) (hnd : idx.Nodup) (hmem : t ∈ idx)
    (hlt : t < buf.length) :
    (scatterRows buf idx (idx.map f)).getD t d = f t := by
  induction idx generalizing buf with
  | nil => cases hmem
  | cons a idx ih =>
    rw [List.map_cons, scatterRows_cons]
    rcases List.mem_cons.mp hmem with rfl | hmem2
    · have hnotin : t ∉ idx := (List.nodup_cons.mp hnd).1
      rw [getD_scatterRows_not_mem _ _ _ _ hnotin, List.getD_eq_getElem?_getD,
        List.getElem?_set_eq_of_lt _ hlt]
      rfl
    · exact ih _ (List.nodup_cons.mp hnd).2 hmem2 (by rw [List.length_set]; exact hlt)

theorem foldScatter_length (es : List ℕ) (k : ℕ → List ℕ) (f : ℕ → ℕ → List ℚ)
    (buf : List (List ℚ)) :
    (es.foldl (fun b i => scatterRows b (k i) ((k i).map (f i))) buf).length = buf.length := by
  induction es generalizing buf with
  | nil => rfl
  | cons e es ih => rw [List.foldl_cons, ih, length_scatterRows]

theorem getD_foldScatter_not_mem (es : List ℕ) (k : ℕ → List ℕ) (f : ℕ → ℕ → List ℚ)
    (buf : List (List ℚ)) (d : List ℚ) (t : ℕ) (h : ∀ i ∈ es, t ∉ k i) :
    (es.foldl (fun b i => scatterRows b (k i) ((k i).map (f i))) buf).getD t d
      = buf.getD t d := by
  induction es generalizing buf with
  | nil => rfl
  | cons e es ih =>
    rw [List.foldl_cons, ih _ (fun i hi => h i (List.mem_cons_of_mem e hi)),
      getD_scatterRows_not_mem _ _ _ _ (h e (List.mem_cons_self e es))]

theorem getD_foldScatter_mem (es : List ℕ) (k : ℕ → List ℕ) (f : ℕ → ℕ → List ℚ)
    (buf : List (List ℚ)) (d : List ℚ) (t r : ℕ) (hnd : es.Nodup) (hr : r ∈ es)
    (hkr : t ∈ k r) (hknd : (k r).Nodup) (hdis : ∀ j, j ≠ r → t ∉ k j)
    (hlt : t < buf.length) :
    (es.foldl (fun b i => scatterRows b (k i) ((k i).map (f i))) buf).getD t d
      = f r t := by
  induction es generalizing buf with
  | nil => cases hr
  | cons e es ih =>
    rw [List.foldl_cons]
    rcases List.mem_cons.mp hr with rfl | hr2
    · rw [getD_foldScatter_not_mem _ _ _ _ _ _
        (fun i hi => hdis i (fun e2 => (List.nodup_cons.mp hnd).1 (e2 ▸ hi)))]
      exact getD_scatterRows_map _ _ _ hknd hkr hlt
    · exact ih _ (List.nodup_cons.mp hnd).2 hr2
        (by rw [length_scatterRows]; exact hlt)

theorem listSumRange {M : Type} [AddCommMonoid M] (n : ℕ) (f : ℕ → M) :
    ((List.range n).map f).sum = ∑ j ∈ Finset.range n, f j := by
  induction n with
  | zero => simp
  | succ n ih =>
    rw [List.range_succ, List.map_append, List.sum_append, Finset.sum_range_succ, ih]
    simp

theorem countPartition (g : ℕ → ℕ) (n : ℕ) :
    ∀ (l : List ℕ), (∀ t ∈ l, g t < n) →
      (∑ i ∈ Finset.range n, (l.filter (fun t => g t = i)).length) = l.length
  | [], _ => by simp
  | a :: l, h => by
    have ih := countPartition g n l (fun t ht => h t (List.mem_cons_of_mem a ht))
    have step : ∀ i, ((a :: l).filter (fun t => g t = i)).length
        = (if g a = i then 1 else 0) + (l.filter (fun t => g t = i)).length := by
      intro i
      rw [List.filter_cons]
      by_cases hi : g a = i <;> simp [hi, Nat.add_comm]
    rw [Finset.sum_congr rfl (fun i _ => step i), Finset.sum_add_distrib, ih,
      Finset.sum_ite_eq, if_pos (Finset.mem_range.mpr (h a (List.mem_cons_self a l)))]
    simp [Nat.add_comm]

namespace SwitchFeedForward

variable {m : SwitchFeedForward}

theorem mem_indexes_list {x : List (List ℚ)} {i t : ℕ} :
    t ∈ m.indexes_list x i ↔ t < x.length ∧ m.routes (tokenAt x t) = i := by
  simp [indexes_list]

theorem nodup_indexes_list (x : List (List ℚ)) (i : ℕ) : (m.indexes_list x i).Nodup :=
  List.Nodup.filter _ (List.nodup_range _)

theorem indexes_list_disjoint {x : List (List ℚ)} {i j : ℕ} (hij : i ≠ j) :
    (m.indexes_list x i).Disjoint (m.indexes_list x j) := by
  intro t hi hj
  rw [mem_indexes_list] at hi hj
  exact hij (hi.2.symm.trans hj.2)

theorem length_route_prob (v : List ℚ) :
    (m.route_prob v).length = min m.switch_weight.length m.switch_bias.length := by
  simp [route_prob, softmaxRow, switchOut]

theorem route_prob_ne_nil (hn : 0 < m.n_switches)
    (hW : m.switch_weight.length = m.n_switches)
    (hb : m.switch_bias.length = m.n_switches) (v : List ℚ) : m.route_prob v ≠ [] := by
  intro h0
  have := length_route_prob (m := m) v
  rw [h0, hW, hb, min_self] at this
  simp at this
  omega

theorem routes_lt (hn : 0 < m.n_switches)
    (hW : m.switch_weight.length = m.n_switches)
    (hb : m.switch_bias.length = m.n_switches) (v : List ℚ) :
    m.routes v < m.n_switches := by
  have hne := route_prob_ne_nil hn hW hb v
  have h1 := torchMax_snd_lt hne
  rw [length_route_prob, hW, hb, min_self] at h1
  exact h1

theorem route_prob_pos (hpos : ∀ q, 0 < m.exp q) {v : List ℚ} :
    ∀ p ∈ m.route_prob v, 0 < p := by
  intro p hp
  simp only [route_prob, softmaxRow, List.mem_map] at hp
  obtain ⟨zi, hzi, rfl⟩ := hp
  have hS : 0 < ((m.switchOut v).map m.exp).sum := by
    apply List.sum_pos
    · intro y hy
      obtain ⟨z, _, rfl⟩ := List.mem_map.mp hy
      exact hpos z
    · intro h0
      rw [List.map_eq_nil_iff.mp h0] at hzi
      cases hzi
  exact div_pos (hpos zi) hS

theorem route_prob_max_pos (hpos : ∀ q, 0 < m.exp q) (hn : 0 < m.n_switches)
    (hW : m.switch_weight.length = m.n_switches)
    (hb : m.switch_bias.length = m.n_switches) (v : List ℚ) :
    0 < m.route_prob_max v :=
  route_prob_pos hpos _ (torchMax_fst_mem (route_prob_ne_nil hn hW hb v))

theorem counts_sum (hn : 0 < m.n_switches)
    (hW : m.switch_weight.length = m.n_switches)
    (hb : m.switch_bias.length = m.n_switches) (x : List (List ℚ)) :
    (m.counts x).sum = x.length := by
  unfold counts indexes_list
  rw [listSumRange]
  have := countPartition (fun t => m.routes (tokenAt x t)) m.n_switches
    (List.range x.length) (fun t _ => routes_lt hn hW hb _)
  simpa using this

theorem kept_append_dropped_perm {x : List (List ℚ)} {perms : ℕ → List ℕ} {i : ℕ}
    (hpi : m.overCap x i → (perms i).Perm (List.range (m.indexes_list x i).length)) :
    (m.keptIdx x perms i ++ m.droppedFor x perms i).Perm (m.indexes_list x i) := by
  unfold keptIdx droppedFor
  by_cases h : m.overCap x i
  · rw [if_pos h, if_pos h, pyTake_append_pyDrop]
    exact permuteBy_perm (hpi h)
  · rw [if_neg h, if_neg h, List.append_nil]

theorem nodup_kept_append_dropped {x : List (List ℚ)} {perms : ℕ → List ℕ} {i : ℕ}
    (hpi : m.overCap x i → (perms i).Perm (List.range (m.indexes_list x i).length)) :
    (m.keptIdx x perms i ++ m.droppedFor x perms i).Nodup :=
  (kept_append_dropped_perm hpi).symm.nodup (nodup_indexes_list x i)

theorem keptIdx_subset {x : List (List ℚ)} {perms : ℕ → List ℕ} {i : ℕ}
    (hpi : m.overCap x i → (perms i).Perm (List.range (m.indexes_list x i).length)) :
    ∀ t ∈ m.keptIdx x perms i, t ∈ m.indexes_list x i := by
  intro t ht
  exact (kept_append_dropped_perm hpi).mem_iff.mp (List.mem_append_left _ ht)

theorem droppedFor_subset {x : List (List ℚ)} {perms : ℕ → List ℕ} {i : ℕ}
    (hpi : m.overCap x i → (perms i).Perm (List.range (m.indexes_list x i).length)) :
    ∀ t ∈ m.droppedFor x perms i, t ∈ m.indexes_list x i := by
  intro t ht
  exact (kept_append_dropped_perm hpi).mem_iff.mp (List.mem_append_right _ ht)

theorem mem_kept_or_dropped {x : List (List ℚ)} {perms : ℕ → List ℕ} {i t : ℕ}
    (hpi : m.overCap x i → (perms i).Perm (List.range (m.indexes_list x i).length))
    (ht : t ∈ m.indexes_list x i) :
    t ∈ m.keptIdx x perms i ∨ t ∈ m.droppedFor x perms i :=
  List.mem_append.mp ((kept_append_dropped_perm hpi).mem_iff.mpr ht)

theorem not_kept_and_dropped {x : List (List ℚ)} {perms : ℕ → List ℕ} {i t : ℕ}
    (hpi : m.overCap x i → (perms i).Perm (List.range (m.indexes_list x i).length))
    (hk : t ∈ m.keptIdx x perms i) (hd : t ∈ m.droppedFor x perms i) : False := by
  have hnd := nodup_kept_append_dropped hpi
  exact (List.disjoint_of_nodup_append hnd) hk hd

theorem nodup_keptIdx {x : List (List ℚ)} {perms : ℕ → List ℕ} {i : ℕ}
    (hpi : m.overCap x i → (perms i).Perm (List.range (m.indexes_list x i).length)) :
    (m.keptIdx x perms i).Nodup :=
  (List.nodup_append.mp (nodup_kept_append_dropped hpi)).1

theorem nodup_droppedFor {x : List (List ℚ)} {perms : ℕ → List ℕ} {i : ℕ}
    (hpi : m.overCap x i → (perms i).Perm (List.range (m.indexes_list x i).length)) :
    (m.droppedFor x perms i).Nodup :=
  (List.nodup_append.mp (nodup_kept_append_dropped hpi)).2.1

theorem kept_dropped_length {x : List (List ℚ)} {perms : ℕ → List ℕ} {i : ℕ}
    (hpi : m.overCap x i → (perms i).Perm (List.range (m.indexes_list x i).length)) :
    (m.keptIdx x perms i).length + (m.droppedFor x perms i).length
      = (m.indexes_list x i).length := by
  have := (kept_append_dropped_perm hpi).length_eq
  rwa [List.length_append] at this

theorem mem_droppedIdx {x : List (List ℚ)} {perms : ℕ → List ℕ} {t : ℕ} :
    t ∈ m.droppedIdx x perms ↔
      ∃ i, i < m.n_switches ∧ t ∈ m.droppedFor x perms i := by
  simp [droppedIdx, List.mem_flatten]

theorem nodup_droppedIdx {x : List (List ℚ)} {perms : ℕ → List ℕ}
    (hperm : ∀ i, m.overCap x i →
      (perms i).Perm (List.range (m.indexes_list x i).length)) :
    (m.droppedIdx x perms).Nodup := by
  rw [droppedIdx, List.nodup_flatten]
  constructor
  · intro l hl
    obtain ⟨i, _, rfl⟩ := List.mem_map.mp hl
    exact nodup_droppedFor (hperm i)
  · rw [List.pairwise_map]
    apply List.Pairwise.imp ?_ (List.pairwise_lt_range m.n_switches)
    intro i j hij t hti htj
    exact indexes_list_disjoint (Nat.ne_of_lt hij)
      (droppedFor_subset (hperm i) t hti) (droppedFor_subset (hperm j) t htj)

theorem mem_droppedIdx_iff {x : List (List ℚ)} {perms : ℕ → List ℕ} {t : ℕ}
    (hperm : ∀ i, m.overCap x i →
      (perms i).Perm (List.range (m.indexes_list x i).length))
    (hr : m.routes (tokenAt x t) < m.n_switches) :
    t ∈ m.droppedIdx x perms ↔ t ∈ m.droppedFor x perms (m.routes (tokenAt x t)) := by
  constructor
  · intro h
    obtain ⟨i, _, hi⟩ := mem_droppedIdx.mp h
    have : t ∈ m.indexes_list x i := droppedFor_subset (hperm i) t hi
    have heq : m.routes (tokenAt x t) = i := (mem_indexes_list.mp this).2
    rwa [heq]
  · intro h
    exact mem_droppedIdx.mpr ⟨_, hr, h⟩

theorem length_newZeros (x : List (List ℚ)) : (newZeros x).length = x.length := by
  simp [newZeros]

theorem length_final_output (x : List (List ℚ)) (perms : ℕ → List ℕ) :
    (m.final_output x perms).length = x.length := by
  unfold final_output route_outputs
  rw [length_scatterRows, foldScatter_length, length_newZeros, List.length_map]

/-- Row-level characterization of `final_output`: each token position `t`
holds either the pass-through of its confidence-scaled input (when dropped) or
its argmax expert's output on the confidence-scaled input (when kept), and the
two cases are exhaustive and exclusive. -/
theorem getD_final_output (hn : 0 < m.n_switches)
    (hW : m.switch_weight.length = m.n_switches)
    (hb : m.switch_bias.length = m.n_switches)
    {x : List (List ℚ)} {perms : ℕ → List ℕ}
    (hperm : ∀ i, m.overCap x i →
      (perms i).Perm (List.range (m.indexes_list x i).length))
    {t : ℕ} (ht : t < x.length) :
    (t ∈ m.droppedIdx x perms →
      (m.final_output x perms).getD t [] = m.scaled (tokenAt x t)) ∧
    (t ∉ m.droppedIdx x perms →
      t ∈ m.keptIdx x perms (m.routes (tokenAt x t)) ∧
      (m.final_output x perms).getD t []
        = m.experts (m.routes (tokenAt x t)) (m.scaled (tokenAt x t))) := by
  have hr : m.routes (tokenAt x t) < m.n_switches := routes_lt hn hW hb _
  have htidx : t ∈ m.indexes_list x (m.routes (tokenAt x t)) :=
    mem_indexes_list.mpr ⟨ht, rfl⟩
  have hbuf : (newZeros (x.map m.scaled)).length = x.length := by
    rw [length_newZeros, List.length_map]
  have hfoldlen : ∀ es : List ℕ,
      (es.foldl (fun b i => scatterRows b (m.keptIdx x perms i)
        ((m.keptIdx x perms i).map (fun s => m.experts i (m.scaled (tokenAt x s)))))
        (newZeros (x.map m.scaled))).length = x.length := by
    intro es; rw [foldScatter_length, hbuf]
  constructor
  · intro hd
    unfold final_output route_outputs
    rw [getD_scatterRows_map _ _ _ (nodup_droppedIdx hperm) hd
      (by rw [hfoldlen]; exact ht)]
  · intro hnd
    have hk : t ∈ m.keptIdx x perms (m.routes (tokenAt x t)) := by
      rcases mem_kept_or_dropped (hperm _) htidx with h | h
      · exact h
      · exact absurd ((mem_droppedIdx_iff hperm hr).mpr h) hnd
    refine ⟨hk, ?_⟩
    unfold final_output route_outputs
    rw [getD_scatterRows_not_mem _ _ _ _ hnd]
    apply getD_foldScatter_mem _ _ _ _ _ _ _ (List.nodup_range _)
      (List.mem_range.mpr hr) hk (nodup_keptIdx (hperm _)) ?_ (by rw [hbuf]; exact ht)
    intro j hj htj
    exact indexes_list_disjoint hj (keptIdx_subset (hperm _) t htj) htidx

theorem length_scaled (v : List ℚ) : (m.scaled v).length = v.length := by
  simp [scaled]

theorem tokenAt_mem {x : List (List ℚ)} {t : ℕ} (ht : t < x.length) :
    tokenAt x t ∈ x := by
  rw [tokenAt, List.getD_eq_getElem _ _ ht]
  exact List.getElem_mem ht

theorem mem_final_output_length (hn : 0 < m.n_switches)
    (hW : m.switch_weight.length = m.n_switches)
    (hb : m.switch_bias.length = m.n_switches)
    {x : List (List ℚ)} {perms : ℕ → List ℕ}
    (hperm : ∀ i, m.overCap x i →
      (perms i).Perm (List.range (m.indexes_list x i).length))
    (htok : ∀ v ∈ x, v.length = m.d_model)
    (hexp : ∀ i v, v.length = m.d_model → (m.experts i v).length = m.d_model) :
    ∀ row ∈ m.final_output x perms, row.length = m.d_model := by
  intro row hrow
  obtain ⟨t, htl, hrt⟩ := List.mem_iff_getElem.mp hrow
  rw [length_final_output] at htl
  have hgetD : (m.final_output x perms).getD t [] = row := by
    rw [List.getD_eq_getElem _ _ (by rw [length_final_output]; exact htl)]
    exact hrt
  have hscaled : (m.scaled (tokenAt x t)).length = m.d_model := by
    rw [length_scaled]
    exact htok _ (tokenAt_mem htl)
  have hchar := getD_final_output hn hW hb hperm htl
  by_cases hd : t ∈ m.droppedIdx x perms
  · rw [← hgetD, hchar.1 hd]; exact hscaled
  · rw [← hgetD, (hchar.2 hd).2]; exact hexp _ _ hscaled

end SwitchFeedForward

theorem flatten_length_of_rect {X : List (List (List ℚ))}
    (hbs : ∀ r ∈ X, r.length = (X.headD []).length) :
    X.flatten.length = X.length * (X.headD []).length := by
  rw [List.length_flatten]
  have h1 : X.map List.length = List.replicate X.length (X.headD []).length := by
    rw [List.eq_replicate_iff]
    refine ⟨List.length_map _ _, ?_⟩
    intro b hbmem
    obtain ⟨r, hr, rfl⟩ := List.mem_map.mp hbmem
    exact hbs r hr
  rw [h1, List.sum_replicate, smul_eq_mul]

/-! Claim theorems. -/

open SwitchFeedForward

/-- C1: for every well-shaped input batch the router returns (rather than
raising), its output has the input's shape (number of rows, per-row length,
and vector dimensionality all equal to the input's) with token ordering
preserved: the flat output row at every token position is exactly either its
argmax-assigned expert's FFN output on the confidence-scaled token, or (when
dropped) the confidence-scaled token itself passed through. -/
theorem C1_router_output_shape_and_order
    (m : SwitchFeedForward) (X : List (List (List ℚ))) (perms : ℕ → List ℕ)
    (hn : 0 < m.n_switches)
    (hW : m.switch_weight.length = m.n_switches)
    (hb : m.switch_bias.length = m.n_switches)
    (hperm : ∀ i, m.overCap X.flatten i →
      (perms i).Perm (List.range ((m.indexes_list X.flatten i).length)))
    (hbs : ∀ r ∈ X, r.length = (X.headD []).length)
    (htok : ∀ v ∈ X.flatten, v.length = m.d_model)
    (hexp : ∀ i v, v.length = m.d_model → (m.experts i v).length = m.d_model) :
    m.call X perms = some (m.callResult X perms) ∧
    (m.callResult X perms).output.length = X.length ∧
    (∀ row ∈ (m.callResult X perms).output, row.length = (X.headD []).length) ∧
    (∀ row ∈ (m.callResult X perms).output, ∀ v ∈ row, v.length = m.d_model) ∧
    (m.callResult X perms).output.flatten = m.final_output X.flatten perms ∧
    ∀ t, t < X.flatten.length →
      (t ∈ m.droppedIdx X.flatten perms →
        (m.final_output X.flatten perms).getD t [] = m.scaled (tokenAt X.flatten t)) ∧
      (t ∉ m.droppedIdx X.flatten perms →
        (m.final_output X.flatten perms).getD t []
          = m.experts (m.routes (tokenAt X.flatten t))
              (m.scaled (tokenAt X.flatten t))) := by
  have hT := flatten_length_of_rect hbs
  have hflen : (m.final_output X.flatten perms).length
      = X.length * (X.headD []).length := by
    rw [length_final_output]; exact hT
  refine ⟨?_, ?_, ?_, ?_, ?_, ?_⟩
  · unfold SwitchFeedForward.call
    rw [if_neg (Nat.pos_iff_ne_zero.mp hn)]
  · simp only [SwitchFeedForward.callResult]
    exact length_chunksOf _ _ _
  · simp only [SwitchFeedForward.callResult]
    exact length_mem_chunksOf hflen
  · simp only [SwitchFeedForward.callResult]
    intro row hrow v hv
    exact mem_final_output_length hn hW hb hperm htok hexp v
      (mem_chunksOf_subset hrow v hv)
  · simp only [SwitchFeedForward.callResult]
    exact flatten_chunksOf hflen
  · intro t ht
    have hchar := getD_final_output hn hW hb hperm ht
    exact ⟨hchar.1, fun hnd => (hchar.2 hnd).2⟩

/-- Witness for C1: the hypotheses are satisfiable at a concrete two-token
batch, where the call indeed returns its result quadruple. -/
theorem C1_router_output_shape_and_order_witness :
    (toyModule 2 true true).call toyBatch
        ((toyModule 2 true true).idPerms toyBatch.flatten)
      = some ((toyModule 2 true true).callResult toyBatch
          ((toyModule 2 true true).idPerms toyBatch.flatten)) :=
  (C1_router_output_shape_and_order (toyModule 2 true true) toyBatch _
    (by decide) rfl rfl (fun i _ => List.Perm.refl _)
    (by decide) (by decide) (fun _ _ h => h)).1

/-- C2: with dropping enabled and a nonnegative capacity factor, the capacity
equals `floor(capacity_factor * total_tokens / n_experts)` recomputed from the
current token count, no expert's FFN is evaluated on more than `capacity`
tokens, and each over-capacity expert's processed list is its randomly
permuted index list truncated to the first `capacity` entries, the remainder
being the dropped set. -/
theorem C2_capacity_enforced
    (m : SwitchFeedForward) (x : List (List ℚ)) (perms : ℕ → List ℕ)
    (hd : m.drop_tokens = true) (hcf : 0 ≤ m.capacity_factor) :
    m.capacity x = ⌊m.capacity_factor * (x.length : ℚ) / (m.n_switches : ℚ)⌋ ∧
    (∀ i, ((m.route_outputs x perms i).length : ℤ) ≤ m.capacity x) ∧
    (∀ i, m.capacity x < ((m.indexes_list x i).length : ℤ) →
      m.keptIdx x perms i
        = (permuteBy (perms i) (m.indexes_list x i)).take (m.capacity x).toNat ∧
      m.droppedFor x perms i
        = (permuteBy (perms i) (m.indexes_list x i)).drop (m.capacity x).toNat) := by
  have hq : 0 ≤ m.capacity_factor * (x.length : ℚ) / (m.n_switches : ℚ) :=
    div_nonneg (mul_nonneg hcf (Nat.cast_nonneg _)) (Nat.cast_nonneg _)
  have hcap_eq : m.capacity x
      = ⌊m.capacity_factor * (x.length : ℚ) / (m.n_switches : ℚ)⌋ := by
    unfold SwitchFeedForward.capacity pyInt
    rw [if_pos hq]
  have hcap0 : 0 ≤ m.capacity x := hcap_eq ▸ Int.floor_nonneg.mpr hq
  refine ⟨hcap_eq, ?_, ?_⟩
  · intro i
    simp only [route_outputs, List.length_map]
    unfold SwitchFeedForward.keptIdx
    by_cases h : m.overCap x i
    · rw [if_pos h]
      exact length_pyTake_le hcap0 _
    · rw [if_neg h]
      unfold SwitchFeedForward.overCap at h
      push_neg at h
      exact h hd
  · intro i hover
    have h : m.overCap x i := ⟨hd, hover⟩
    unfold SwitchFeedForward.keptIdx SwitchFeedForward.droppedFor
    rw [if_pos h, if_pos h]
    unfold pyTake pyDrop
    rw [if_pos hcap0, if_pos hcap0]
    exact ⟨rfl, rfl⟩

/-- Witness for C2 at a concrete configuration with dropping enabled. -/
theorem C2_capacity_enforced_witness :
    (toyModule 1 true true).capacity toyBatch.flatten
      = ⌊(toyModule 1 true true).capacity_factor * (toyBatch.flatten.length : ℚ)
          / ((toyModule 1 true true).n_switches : ℚ)⌋ :=
  (C2_capacity_enforced (toyModule 1 true true) toyBatch.flatten
    ((toyModule 1 true true).idPerms toyBatch.flatten) rfl
    (by norm_num [toyModule])).1

/-- C3: when `drop_tokens` is false no token is ever dropped — the call
returns, `n_dropped = 0`, every expert keeps its whole assigned index list
whatever the capacity, and every token's output row is its assigned expert's
FFN applied to the confidence-scaled token. -/
theorem C3_no_drop_when_disabled
    (m : SwitchFeedForward) (X : List (List (List ℚ))) (perms : ℕ → List ℕ)
    (hdF : m.drop_tokens = false)
    (hn : 0 < m.n_switches)
    (hW : m.switch_weight.length = m.n_switches)
    (hb : m.switch_bias.length = m.n_switches) :
    m.call X perms = some (m.callResult X perms) ∧
    (m.callResult X perms).n_dropped = 0 ∧
    (∀ i, m.keptIdx X.flatten perms i = m.indexes_list X.flatten i) ∧
    ∀ t, t < X.flatten.length →
      (m.final_output X.flatten perms).getD t []
        = m.experts (m.routes (tokenAt X.flatten t))
            (m.scaled (tokenAt X.flatten t)) := by
  have hnotover : ∀ i, ¬ m.overCap X.flatten i := by
    intro i h
    rw [SwitchFeedForward.overCap, hdF] at h
    exact absurd h.1 (by simp)
  have hperm : ∀ i, m.overCap X.flatten i →
      (perms i).Perm (List.range ((m.indexes_list X.flatten i).length)) :=
    fun i h => absurd h (hnotover i)
  have hdropF : ∀ i, m.droppedFor X.flatten perms i = [] := by
    intro i
    unfold SwitchFeedForward.droppedFor
    rw [if_neg (hnotover i)]
  have hdropIdx : m.droppedIdx X.flatten perms = [] := by
    unfold SwitchFeedForward.droppedIdx
    rw [List.flatten_eq_nil_iff]
    intro l hl
    obtain ⟨i, _, rfl⟩ := List.mem_map.mp hl
    exact hdropF i
  refine ⟨?_, ?_, ?_, ?_⟩
  · unfold SwitchFeedForward.call
    rw [if_neg (Nat.pos_iff_ne_zero.mp hn)]
  · simp only [SwitchFeedForward.callResult]
    rw [hdropIdx]
    rfl
  · intro i
    unfold SwitchFeedForward.keptIdx
    rw [if_neg (hnotover i)]
  · intro t ht
    have hchar := getD_final_output hn hW hb hperm ht
    exact (hchar.2 (by rw [hdropIdx]; exact List.not_mem_nil t)).2

/-- Witness for C3 at a concrete configuration with dropping disabled. -/
theorem C3_no_drop_when_disabled_witness :
    ((toyModule 1 false true).callResult toyBatch
        ((toyModule 1 false true).idPerms toyBatch.flatten)).n_dropped = 0 :=
  (C3_no_drop_when_disabled (toyModule 1 false true) toyBatch
    ((toyModule 1 false true).idPerms toyBatch.flatten)
    rfl (by decide) rfl rfl).2.1

/-- C8: the returned pre-drop per-expert counts always sum to the total token
count, for either value of `drop_tokens`. -/
theorem C8_counts_sum_total
    (m : SwitchFeedForward) (X : List (List (List ℚ))) (perms : ℕ → List ℕ)
    (hn : 0 < m.n_switches)
    (hW : m.switch_weight.length = m.n_switches)
    (hb : m.switch_bias.length = m.n_switches) :
    (m.callResult X perms).counts.sum = X.flatten.length := by
  simp only [SwitchFeedForward.callResult]
  exact counts_sum hn hW hb X.flatten

/-- Witness for C8 at a concrete configuration. -/
theorem C8_counts_sum_total_witness :
    ((toyModule 1 true true).callResult toyBatch
        ((toyModule 1 true true).idPerms toyBatch.flatten)).counts.sum
      = toyBatch.flatten.length :=
  C8_counts_sum_total (toyModule 1 true true) toyBatch
    ((toyModule 1 true true).idPerms toyBatch.flatten) (by decide) rfl rfl

/-- C4: the per-expert post-drop processed counts (the number of rows each
expert's FFN is evaluated on) plus the returned `n_dropped` add up to the
total token count. -/
theorem C4_token_conservation
    (m : SwitchFeedForward) (X : List (List (List ℚ))) (perms : ℕ → List ℕ)
    (hn : 0 < m.n_switches)
    (hW : m.switch_weight.length = m.n_switches)
    (hb : m.switch_bias.length = m.n_switches)
    (hperm : ∀ i, m.overCap X.flatten i →
      (perms i).Perm (List.range ((m.indexes_list X.flatten i).length))) :
    ((List.range m.n_switches).map
        (fun i => (m.route_outputs X.flatten perms i).length)).sum
      + (m.callResult X perms).n_dropped = X.flatten.length := by
  have hnd : (m.callResult X perms).n_dropped
      = ((List.range m.n_switches).map
          (fun i => (m.droppedFor X.flatten perms i).length)).sum := by
    simp only [SwitchFeedForward.callResult]
    unfold SwitchFeedForward.droppedIdx
    rw [List.length_flatten, List.map_map]
    rfl
  have hro : ∀ i, (m.route_outputs X.flatten perms i).length
      = (m.keptIdx X.flatten perms i).length := by
    intro i
    simp [route_outputs]
  have hc := counts_sum hn hW hb X.flatten
  unfold SwitchFeedForward.counts at hc
  rw [listSumRange] at hc
  rw [hnd, listSumRange, listSumRange, ← Finset.sum_add_distrib, ← hc]
  apply Finset.sum_congr rfl
  intro i _
  rw [hro i, kept_dropped_length (hperm i)]

/-- Witness for C4 at a concrete configuration. -/
theorem C4_token_conservation_witness :
    ((List.range (toyModule 1 true true).n_switches).map
        (fun i => ((toyModule 1 true true).route_outputs toyBatch.flatten
          ((toyModule 1 true true).idPerms toyBatch.flatten) i).length)).sum
      + ((toyModule 1 true true).callResult toyBatch
          ((toyModule 1 true true).idPerms toyBatch.flatten)).n_dropped
      = toyBatch.flatten.length :=
  C4_token_conservation (toyModule 1 true true) toyBatch
    ((toyModule 1 true true).idPerms toyBatch.flatten) (by decide) rfl rfl
    (fun i _ => List.Perm.refl _)

/-- C5: the confidence scaling happens before the expert call — a processed
token's output is its expert's FFN on the scaled token, a dropped token's
output is exactly the scaled token with no FFN applied — and the scaling
factor is the routing confidence when `is_scale_prob` and the numeric
identity `confidence / confidence = 1` otherwise. -/
theorem C5_confidence_scaling
    (m : SwitchFeedForward) (X : List (List (List ℚ))) (perms : ℕ → List ℕ)
    (hn : 0 < m.n_switches)
    (hW : m.switch_weight.length = m.n_switches)
    (hb : m.switch_bias.length = m.n_switches)
    (hperm : ∀ i, m.overCap X.flatten i →
      (perms i).Perm (List.range ((m.indexes_list X.flatten i).length)))
    (hpos : ∀ q, 0 < m.exp q) :
    ∀ t, t < X.flatten.length →
      m.scaled (tokenAt X.flatten t)
        = (tokenAt X.flatten t).map
            (fun c => c * m.factor (tokenAt X.flatten t)) ∧
      (m.is_scale_prob = true →
        m.factor (tokenAt X.flatten t) = m.route_prob_max (tokenAt X.flatten t)) ∧
      (m.is_scale_prob = false → m.factor (tokenAt X.flatten t) = 1) ∧
      (t ∉ m.droppedIdx X.flatten perms →
        (m.final_output X.flatten perms).getD t []
          = m.experts (m.routes (tokenAt X.flatten t))
              (m.scaled (tokenAt X.flatten t))) ∧
      (t ∈ m.droppedIdx X.flatten perms →
        (m.final_output X.flatten perms).getD t []
          = m.scaled (tokenAt X.flatten t)) := by
  intro t ht
  have hchar := getD_final_output hn hW hb hperm ht
  refine ⟨rfl, ?_, ?_, fun hnd => (hchar.2 hnd).2, hchar.1⟩
  · intro hs
    unfold SwitchFeedForward.factor
    rw [hs]
    rfl
  · intro hs
    unfold SwitchFeedForward.factor
    rw [hs]
    simp only [Bool.false_eq_true, if_false]
    exact div_self (ne_of_gt (route_prob_max_pos hpos hn hW hb _))

/-- Witness for C5: at a concrete `is_scale_prob = false` instance the
scaling factor of the single token is the numeric identity 1. -/
theorem C5_confidence_scaling_witness :
    (toyModule 1 true false).factor (tokenAt toyBatch1.flatten 0) = 1 :=
  ((C5_confidence_scaling (toyModule 1 true false) toyBatch1
      ((toyModule 1 true false).idPerms toyBatch1.flatten)
      (by decide) rfl rfl (fun i _ => List.Perm.refl _)
      (fun _ => one_pos) 0 (by decide)).2.2.1) rfl

/-- C7: a zero-token batch raises no error: the call succeeds, the capacity
computation yields zero without dividing by zero, no token is dropped, and
the output is the (empty) input batch itself, of identical shape. -/
theorem C7_empty_batch
    (m : SwitchFeedForward) (X : List (List (List ℚ))) (perms : ℕ → List ℕ)
    (hn : 0 < m.n_switches) (hflat : X.flatten = []) :
    m.call X perms = some (m.callResult X perms) ∧
    m.capacity X.flatten = 0 ∧
    (m.callResult X perms).output = X ∧
    (m.callResult X perms).n_dropped = 0 := by
  have hXrows : ∀ r ∈ X, r = [] := List.flatten_eq_nil_iff.mp hflat
  have hfin : m.final_output X.flatten perms = [] := by
    apply List.length_eq_zero.mp
    rw [length_final_output, hflat]
    rfl
  have hdropIdx : m.droppedIdx X.flatten perms = [] := by
    unfold SwitchFeedForward.droppedIdx
    rw [List.flatten_eq_nil_iff]
    intro l hl
    obtain ⟨i, _, rfl⟩ := List.mem_map.mp hl
    unfold SwitchFeedForward.droppedFor
    rw [if_neg ?_]
    intro h
    unfold SwitchFeedForward.overCap at h
    have hlen : ((m.indexes_list X.flatten i).length : ℤ) = 0 := by
      simp [indexes_list, hflat]
    rw [hlen] at h
    have hcap : (0 : ℤ) ≤ m.capacity X.flatten := by
      rw [hflat]
      unfold SwitchFeedForward.capacity pyInt
      norm_num
    omega
  refine ⟨?_, ?_, ?_, ?_⟩
  · unfold SwitchFeedForward.call
    rw [if_neg (Nat.pos_iff_ne_zero.mp hn)]
  · rw [hflat]
    unfold SwitchFeedForward.capacity pyInt
    norm_num
  · simp only [SwitchFeedForward.callResult]
    rw [hfin, chunksOf_nil]
    exact (List.eq_replicate_iff.mpr ⟨rfl, hXrows⟩).symm
  · simp only [SwitchFeedForward.callResult]
    rw [hdropIdx]
    rfl

/-- Witness for C7 at the concrete empty batch `[]`. -/
theorem C7_empty_batch_witness :
    (toyModule 1 true true).capacity (List.flatten ([] : List (List (List ℚ)))) = 0 :=
  (C7_empty_batch (toyModule 1 true true) [] ((toyModule 1 true true).idPerms [])
    (by decide) rfl).2.1

/-- C9: the call is a pure function of the module state, the input batch and
the drawn permutations — with the randomness fixed by the seed, two calls on
identical inputs and weights return identical quadruples and drop the
identical token set. -/
theorem C9_deterministic_given_seed
    (m₁ m₂ : SwitchFeedForward) (X₁ X₂ : List (List (List ℚ)))
    (perms₁ perms₂ : ℕ → List ℕ)
    (hm : m₁ = m₂) (hX : X₁ = X₂) (hp : ∀ i, perms₁ i = perms₂ i) :
    m₁.call X₁ perms₁ = m₂.call X₂ perms₂ ∧
    m₁.droppedIdx X₁.flatten perms₁ = m₂.droppedIdx X₂.flatten perms₂ := by
  cases hm
  cases hX
  have hpe : perms₁ = perms₂ := funext hp
  cases hpe
  exact ⟨rfl, rfl⟩

/-- Witness for C9 at a concrete repeated call. -/
theorem C9_deterministic_given_seed_witness :
    (toyModule 1 true true).call toyBatch
        ((toyModule 1 true true).idPerms toyBatch.flatten)
      = (toyModule 1 true true).call toyBatch
          ((toyModule 1 true true).idPerms toyBatch.flatten) :=
  (C9_deterministic_given_seed (toyModule 1 true true) (toyModule 1 true true)
    toyBatch toyBatch ((toyModule 1 true true).idPerms toyBatch.flatten)
    ((toyModule 1 true true).idPerms toyBatch.flatten)
    rfl rfl (fun _ => rfl)).1

theorem finset_sum_list_sum (n : ℕ) (rows : List (List ℚ)) :
    (∑ j ∈ Finset.range n, (rows.map (fun r => r.getD j 0)).sum)
      = (rows.map (fun r => ∑ j ∈ Finset.range n, r.getD j 0)).sum := by
  induction rows with
  | nil => simp
  | cons r rows ih =>
    simp only [List.map_cons, List.sum_cons]
    rw [Finset.sum_add_distrib, ih]

theorem sum_range_getD (r : List ℚ) :
    (∑ j ∈ Finset.range r.length, r.getD j 0) = r.sum := by
  rw [← listSumRange, range_map_getD]

theorem softmaxRow_sum {m : SwitchFeedForward} (hpos : ∀ q, 0 < m.exp q)
    {z : List ℚ} (hz : z ≠ []) : (m.softmaxRow z).sum = 1 := by
  unfold SwitchFeedForward.softmaxRow
  have hS : 0 < (z.map m.exp).sum := by
    apply List.sum_pos
    · intro y hy
      obtain ⟨a, _, rfl⟩ := List.mem_map.mp hy
      exact hpos a
    · simpa using hz
  simp only [div_eq_mul_inv]
  rw [List.sum_map_mul_right]
  exact mul_inv_cancel₀ (ne_of_gt hS)

theorem route_prob_sum_one {m : SwitchFeedForward} (hpos : ∀ q, 0 < m.exp q)
    (hn : 0 < m.n_switches)
    (hW : m.switch_weight.length = m.n_switches)
    (hb : m.switch_bias.length = m.n_switches) (v : List ℚ) :
    (m.route_prob v).sum = 1 := by
  unfold SwitchFeedForward.route_prob
  apply softmaxRow_sum hpos
  intro h0
  have : (m.switchOut v).length = 0 := by rw [h0]; rfl
  rw [SwitchFeedForward.switchOut, List.length_zipWith, hW, hb, min_self] at this
  omega

/-- C10: the returned `route_prob_sum` is the per-expert columnwise sum of the
full softmax routing matrix over all tokens, and since each softmax row sums
to one, its entries always sum to the total token count. -/
theorem C10_route_prob_sum_total
    (m : SwitchFeedForward) (X : List (List (List ℚ))) (perms : ℕ → List ℕ)
    (hn : 0 < m.n_switches)
    (hW : m.switch_weight.length = m.n_switches)
    (hb : m.switch_bias.length = m.n_switches)
    (hpos : ∀ q, 0 < m.exp q) :
    (m.callResult X perms).route_prob_sum
      = (List.range m.n_switches).map
          (fun j => (X.flatten.map (fun v => (m.route_prob v).getD j 0)).sum) ∧
    (m.callResult X perms).route_prob_sum.sum = (X.flatten.length : ℚ) := by
  have hlen : ∀ v : List ℚ, (m.route_prob v).length = m.n_switches := by
    intro v
    rw [length_route_prob, hW, hb, min_self]
  constructor
  · simp only [SwitchFeedForward.callResult, sumDim0, List.map_map]
    rfl
  · simp only [SwitchFeedForward.callResult, sumDim0]
    rw [listSumRange, finset_sum_list_sum, List.map_map]
    have hone : ∀ v ∈ X.flatten,
        ((fun r => ∑ j ∈ Finset.range m.n_switches, r.getD j 0) ∘ m.route_prob) v
          = (1 : ℚ) := by
      intro v _
      show (∑ j ∈ Finset.range m.n_switches, (m.route_prob v).getD j 0) = 1
      rw [← hlen v, sum_range_getD]
      exact route_prob_sum_one hpos hn hW hb v
    rw [List.map_congr_left hone, List.map_const', List.sum_replicate]
    simp

/-- Witness for C10 at a concrete configuration. -/
theorem C10_route_prob_sum_total_witness :
    ((toyModule 1 true true).callResult toyBatch
        ((toyModule 1 true true).idPerms toyBatch.flatten)).route_prob_sum.sum
      = (toyBatch.flatten.length : ℚ) :=
  (C10_route_prob_sum_total (toyModule 1 true true) toyBatch
    ((toyModule 1 true true).idPerms toyBatch.flatten)
    (by decide) rfl rfl (fun _ => one_pos)).2

/-- Counterexample to C6: a configuration whose capacity is zero while
`drop_tokens` is enabled does not fail fast — the call on a nonempty
one-token batch succeeds and silently drops every token. -/
theorem C6_fail_fast_counterexample :
    (toyModule 1 true true).capacity toyBatch1.flatten = 0 ∧
    (toyModule 1 true true).drop_tokens = true ∧
    (toyModule 1 true true).call toyBatch1
        ((toyModule 1 true true).idPerms toyBatch1.flatten)
      = some ((toyModule 1 true true).callResult toyBatch1
          ((toyModule 1 true true).idPerms toyBatch1.flatten)) ∧
    toyBatch1.flatten.length = 1 ∧
    ((toyModule 1 true true).callResult toyBatch1
        ((toyModule 1 true true).idPerms toyBatch1.flatten)).n_dropped = 1 := by
  refine ⟨?_, rfl, ?_, rfl, ?_⟩
  · norm_num [SwitchFeedForward.capacity, pyInt, toyModule, toyBatch1]
  · unfold SwitchFeedForward.call
    norm_num [toyModule]
  · norm_num [SwitchFeedForward.callResult, droppedIdx, droppedFor, overCap,
      SwitchFeedForward.capacity, pyInt, pyDrop, permuteBy, idPerms, indexes_list,
      toyBatch1, toyModule, routes, route_prob, softmaxRow, switchOut, tokenAt,
      torchMax, torchMaxAux, dot, List.range_succ]

/-- C6 as the code actually behaves: a non-positive expert count does fail at
the first call (the max-reduction over an empty expert axis raises, modelled
as `none`), but a zero capacity with dropping enabled is not detected — the
call succeeds, every expert's FFN batch is empty, and every token is silently
dropped. -/
theorem C6_degenerate_not_fail_fast
    (m : SwitchFeedForward) (X : List (List (List ℚ))) (perms : ℕ → List ℕ) :
    (m.n_switches = 0 → m.call X perms = none) ∧
    (m.drop_tokens = true → m.capacity X.flatten = 0 → 0 < m.n_switches →
      m.switch_weight.length = m.n_switches →
      m.switch_bias.length = m.n_switches →
      (∀ i, m.overCap X.flatten i →
        (perms i).Perm (List.range ((m.indexes_list X.flatten i).length))) →
      m.call X perms = some (m.callResult X perms) ∧
      (∀ i, m.route_outputs X.flatten perms i = []) ∧
      (m.callResult X perms).n_dropped = X.flatten.length) := by
  constructor
  · intro h0
    unfold SwitchFeedForward.call
    rw [if_pos h0]
  · intro hd hcap hn hW hb hperm
    have hkept : ∀ i, m.keptIdx X.flatten perms i = [] := by
      intro i
      unfold SwitchFeedForward.keptIdx
      by_cases h : m.overCap X.flatten i
      · rw [if_pos h, hcap]
        simp [pyTake]
      · rw [if_neg h]
        unfold SwitchFeedForward.overCap at h
        push_neg at h
        have hle := h hd
        rw [hcap] at hle
        have h0 : (m.indexes_list X.flatten i).length ≤ 0 := by exact_mod_cast hle
        exact List.length_eq_zero.mp (Nat.le_zero.mp h0)
    refine ⟨?_, ?_, ?_⟩
    · unfold SwitchFeedForward.call
      rw [if_neg (Nat.pos_iff_ne_zero.mp hn)]
    · intro i
      simp [route_outputs, hkept i]
    · have hnd : (m.callResult X perms).n_dropped
          = ((List.range m.n_switches).map
              (fun i => (m.droppedFor X.flatten perms i).length)).sum := by
        simp only [SwitchFeedForward.callResult]
        unfold SwitchFeedForward.droppedIdx
        rw [List.length_flatten, List.map_map]
        rfl
      have hc := counts_sum hn hW hb X.flatten
      unfold SwitchFeedForward.counts at hc
      rw [listSumRange] at hc
      rw [hnd, listSumRange, ← hc]
      apply Finset.sum_congr rfl
      intro i _
      have := kept_dropped_length (m := m) (hperm i)
      rw [hkept i] at this
      simpa using this

/-- Witness for the amended C6: with no experts the call fails, and at the
concrete zero-capacity configuration the call silently drops its one token. -/
theorem C6_degenerate_not_fail_fast_witness :
    toyModule0.call toyBatch1 (toyModule0.idPerms toyBatch1.flatten) = none ∧
    ((toyModule 1 true true).callResult toyBatch1
        ((toyModule 1 true true).idPerms toyBatch1.flatten)).n_dropped
      = toyBatch1.flatten.length :=
  ⟨(C6_degenerate_not_fail_fast toyModule0 toyBatch1
      (toyModule0.idPerms toyBatch1.flatten)).1 rfl,
   ((C6_degenerate_not_fail_fast (toyModule 1 true true) toyBatch1
      ((toyModule 1 true true).idPerms toyBatch1.flatten)).2 rfl
      (by norm_num [SwitchFeedForward.capacity, pyInt, toyModule, toyBatch1])
      (by decide) rfl rfl (fun i _ => List.Perm.refl _)).2.2⟩

end SwitchTransformer
